import Mathlib

/-!
# Readability Annotation Engine — verification development

Shallow embedding of the readability engine of `app.py` (sentence
segmentation, syllable estimation, grade scoring, word/sentence
annotation, zone registry and summary aggregation), together with proofs
of the specified properties.

Strings are modelled as `List Char` at the scanning level and wrapped in
`String` at the interface level.  The two external libraries the code
calls are modelled as oracles: `syllapy.count` as a function
`String → Nat` (`0` meaning "no dictionary result", matching the `if n:`
test in the code) and `textstat.flesch_kincaid_grade` as a function
`String → Option ℚ` (`none` meaning the call raised, which the code
catches).  Machine floats are modelled as exact rationals.
-/

/-- Character classes of the Python regexes in `app.py`.  `pyIsSpace`
models Python `\s` on ASCII text (space, tab, newline, carriage return,
vertical tab, form feed). -/
def pyIsSpace (c : Char) : Bool :=
  c == ' ' || c == '\t' || c == '\n' || c == '\x0d' || c == '\x0b' || c == '\x0c'

/-- ASCII letter, i.e. the class `[a-zA-Z]` used throughout `app.py`. -/
def isAsciiAlpha (c : Char) : Bool :=
  ('a' ≤ c && c ≤ 'z') || ('A' ≤ c && c ≤ 'Z')

/-- ASCII character (code point at most 127). -/
def isAsciiChar (c : Char) : Bool :=
  decide (c.toNat ≤ 127)

/-- Sentence-terminal marks: the class `[.!?]` of `split_into_sentences`. -/
def isTerm (c : Char) : Bool :=
  c == '.' || c == '!' || c == '?'

/-- The class `[A-Z\"']` that must follow a sentence boundary. -/
def isUpperQuote (c : Char) : Bool :=
  ('A' ≤ c && c ≤ 'Z') || c == '"' || c == '\''

/-- Python `str.strip()` on a character list: drop whitespace from both
ends. -/
def pyStrip (l : List Char) : List Char :=
  ((l.dropWhile pyIsSpace).reverse.dropWhile pyIsSpace).reverse

/-- Python `str.strip()` at the `String` level. -/
def pyStripStr (s : String) : String :=
  String.mk (pyStrip s.data)

/-- Does `l` begin with a sentence separator, i.e. one or more whitespace
characters followed by an uppercase letter or quotation mark?  This is
the `\s+(?=[A-Z\"'])` part of the boundary regex of
`split_into_sentences`; the `(?<=[.!?])` lookbehind is checked by the
caller. -/
def sepStarts (l : List Char) : Bool :=
  !(l.takeWhile pyIsSpace).isEmpty &&
    (match l.dropWhile pyIsSpace with
     | [] => false
     | d :: _ => isUpperQuote d)

/-- Scanner for `re.split(r"(?<=[.!?])\s+(?=[A-Z\"'])", text)`.
`skip` is true while consuming the whitespace of a just-matched
separator; `acc` holds the current part, reversed.  A maximal whitespace
run is a separator exactly when the character before it is a
sentence-terminal mark and the character after it is an uppercase letter
or quote, so the regex split can be computed by this single local
left-to-right scan. -/
def segM : Bool → List Char → List Char → List (List Char)
  | _, acc, [] => [acc.reverse]
  | skip, acc, c :: rest =>
    if skip && pyIsSpace c then segM true acc rest
    else if isTerm c && sepStarts rest then (c :: acc).reverse :: segM true [] rest
    else segM false (c :: acc) rest

/-- Parts of the sentence-boundary regex split of `l`. -/
def seg (l : List Char) : List (List Char) :=
  segM false [] l

/-- Model of `split_into_sentences`: split the stripped text at sentence
boundaries, then strip each part and keep the non-empty ones. -/
def split_into_sentences (t : String) : List String :=
  (((seg (pyStrip t.data)).map pyStrip).filter (fun p => !p.isEmpty)).map String.mk

/-- Join character-list parts with a single space, modelling
`" ".join(...)` at the scanning level. -/
def joinSp : List (List Char) → List Char
  | [] => []
  | [p] => p
  | p :: q :: ps => p ++ ' ' :: joinSp (q :: ps)

/-- Model of Python `" ".join(...)` on strings. -/
def joinWords : List String → String
  | [] => ""
  | [s] => s
  | s :: q :: rest => s ++ " " ++ joinWords (q :: rest)

-- Sanity checks of the segmenter on concrete inputs.
example : split_into_sentences "Hi there. We ran." = ["Hi there.", "We ran."] := by decide
example : split_into_sentences "  " = [] := by decide
example : split_into_sentences "e.g. the cat" = ["e.g. the cat"] := by decide
example :
    split_into_sentences "Dr. Smith calculated the answer. The cat sat." =
      ["Dr.", "Smith calculated the answer.", "The cat sat."] := by decide

/-- Vowels of the fallback heuristic of `count_syllables`. -/
def isVowel (c : Char) : Bool :=
  c == 'a' || c == 'e' || c == 'i' || c == 'o' || c == 'u' || c == 'y'

/-- Count of contiguous vowel runs; `prev` records whether the previous
character was a vowel (the `cnt, prev_vowel` loop of `count_syllables`). -/
def vgAux : Bool → List Char → Nat
  | _, [] => 0
  | prev, c :: rest =>
    (if isVowel c && !prev then 1 else 0) + vgAux (isVowel c) rest

/-- Vowel-group count of a (cleaned, lowercased) word. -/
def vowelGroups (l : List Char) : Nat :=
  vgAux false l

/-- Model of `count_syllables(word)`.  `sy` is the `syllapy.count`
oracle; the code treats a zero result as "no dictionary answer" (`if n:`)
and falls back to the vowel-group heuristic with silent-`e` adjustment
and a final clamp to at least `1`. -/
def count_syllables (sy : String → Nat) (word : String) : Nat :=
  let clean := (word.data.filter isAsciiAlpha).map Char.toLower
  if clean.isEmpty then 0
  else
    let n := sy (String.mk clean)
    if n ≠ 0 then n
    else
      let cnt := vowelGroups clean
      let cnt := if clean.getLastD 'x' == 'e' && decide (1 < cnt) then cnt - 1 else cnt
      max 1 cnt

/-- Maximal runs of ASCII letters in a character list (the spec's
"WordToken"s); `acc` is the current run, reversed. -/
def wtAux : List Char → List Char → List (List Char)
  | acc, [] => if acc.isEmpty then [] else [acc.reverse]
  | acc, c :: rest =>
    if isAsciiAlpha c then wtAux (c :: acc) rest
    else if acc.isEmpty then wtAux [] rest
    else acc.reverse :: wtAux [] rest

/-- Alphabetic-run word tokens of a character list. -/
def wordTokens (l : List Char) : List (List Char) :=
  wtAux [] l

/-- Alphabetic-run word tokens at the `String` level. -/
def wordTokensStr (t : String) : List String :=
  (wordTokens t.data).map String.mk

/-- Word characters of Python's `\b` boundary, restricted to ASCII:
letters, digits and underscore.  Python's str-pattern `\w` additionally
counts Unicode letters and digits (such as `'é'`) as word characters;
that classification needs the Unicode tables and is not modelled here,
so every fact proved through this definition carries an all-ASCII
hypothesis on the text. -/
def isPyWordChar (c : Char) : Bool :=
  isAsciiAlpha c || c.isDigit || c == '_'

/-- Scanner for `re.findall(r"\b[a-zA-Z]+\b", text)` on ASCII text.  A
maximal run of letters is matched exactly when its neighbours on both
sides are non-word characters (or the ends of the string); a run
bordered by a word character fails the `\b` test and yields nothing.
`prevW` records whether the previous character was a word character, and
`acc` holds the current candidate run, reversed.  Because `isPyWordChar`
covers only ASCII word characters, this scanner is an exact model of the
regex only on all-ASCII text (a letter run bordered by a Unicode word
character such as `'é'` is rejected by Python but accepted here), so
theorems about it assume ASCII input. -/
def bwAux : Bool → List Char → List Char → List (List Char)
  | _, acc, [] => if acc.isEmpty then [] else [acc.reverse]
  | prevW, acc, c :: rest =>
    if isAsciiAlpha c then
      if acc.isEmpty then
        if prevW then bwAux true [] rest else bwAux true [c] rest
      else bwAux true (c :: acc) rest
    else
      if acc.isEmpty then bwAux (isPyWordChar c) [] rest
      else
        if isPyWordChar c then bwAux true [] rest
        else acc.reverse :: bwAux false [] rest

/-- Matches of `re.findall(r"\b[a-zA-Z]+\b", text)`, as used by
`zone_summary_row` to count words; exact for ASCII text (see `bwAux`). -/
def summaryWords (l : List Char) : List (List Char) :=
  bwAux false [] l

-- Sanity checks of the tokenizers.
example : wordTokens "abc1 d-e".data = [['a','b','c'], ['d'], ['e']] := by decide
example : summaryWords "abc1 d-e".data = [['d'], ['e']] := by decide
example : summaryWords "The quick fox jumps.".data =
    [['T','h','e'], ['q','u','i','c','k'], ['f','o','x'], ['j','u','m','p','s']] := by decide
example : count_syllables (fun _ => 0) "strength" = 1 := by decide
example : count_syllables (fun _ => 0) "banana" = 3 := by decide
example : count_syllables (fun _ => 0) "date" = 1 := by decide
example : count_syllables (fun _ => 0) "...!" = 0 := by decide

/-- Round half to even on rationals, modelling Python's `round` on exact
values. -/
def roundHalfEven (x : ℚ) : ℤ :=
  let f := x.floor
  let r := x - f
  if r < 1 / 2 then f
  else if 1 / 2 < r then f + 1
  else if f % 2 = 0 then f else f + 1

/-- Model of Python `round(x, 1)`. -/
def roundTo1 (x : ℚ) : ℚ :=
  (roundHalfEven (10 * x) : ℚ) / 10

/-- Model of `fk_grade(text)`.  `ts` is the
`textstat.flesch_kincaid_grade` oracle; `none` models a raised
exception, which the `try/except` of the code turns into `0.0`, and a
returned value is rounded to one decimal and clamped to at least `0.0`. -/
def fk_grade (ts : String → Option ℚ) (text : String) : ℚ :=
  match ts text with
  | none => 0
  | some g =>
    -- `max(round(..., 1), 0.0)` written out so that it evaluates.
    let r := roundTo1 g
    if r < 0 then 0 else r

example : fk_grade (fun _ => none) "anything" = 0 := by decide

/-- Maximal runs of whitespace / non-whitespace characters, in order:
the token list of `re.split(r"(\s+)", sentence)`.  (On the trimmed
sentences it is applied to, the regex split produces no empty edge
tokens, so the two agree token for token.) -/
def runs : List Char → List (List Char)
  | [] => []
  | [c] => [[c]]
  | c :: d :: rest =>
    match runs (d :: rest) with
    | [] => [[c]]
    | r :: rs =>
      if pyIsSpace c == pyIsSpace d then (c :: r) :: rs else [c] :: r :: rs

/-- The `re.sub(r"[^a-zA-Z]", "", tok)` cleanup of a token. -/
def alphaOnly (tok : List Char) : List Char :=
  tok.filter isAsciiAlpha

/-- Heavy-word test of `render_zone_html`: the alphabetic-stripped token
is non-empty and estimates to at least three syllables. -/
def heavyTok (sy : String → Nat) (tok : List Char) : Bool :=
  !(alphaOnly tok).isEmpty && decide (3 ≤ count_syllables sy (String.mk (alphaOnly tok)))

/-- Annotation of one sentence: each whitespace/non-whitespace run of
the sentence paired with its heavy-word flag (the inner token loop of
`render_zone_html`). -/
def annotateSentence (sy : String → Nat) (sent : List Char) : List (String × Bool) :=
  (runs sent).map (fun tok => (String.mk tok, heavyTok sy tok))

/-- Structured output of the Annotator (`render_zone_html` stripped of
its HTML realization): for each sentence of the zone text, the
above-target flag `fk_grade(sentence) > target` together with the
annotated runs of the sentence. -/
def annotate (ts : String → Option ℚ) (sy : String → Nat) (zone_text : String)
    (target : ℚ) : List (Bool × List (String × Bool)) :=
  (split_into_sentences zone_text).map
    (fun sentence => (decide (target < fk_grade ts sentence), annotateSentence sy sentence.data))

/-- Concatenation of a list of strings (`"".join`). -/
def concatStrs : List String → String
  | [] => ""
  | s :: rest => s ++ concatStrs rest

/-- Strip all highlight markup from the Annotator's output: forget both
flag layers, concatenate each sentence's runs, and rejoin the sentences
with the single-space separator of `" ".join(rendered_sentences)`. -/
def stripHighlights (a : List (Bool × List (String × Bool))) : String :=
  joinWords (a.map (fun e => concatStrs (e.2.map Prod.fst)))

-- Sanity check of the annotator.
example :
    annotate (fun _ => none) (fun _ => 4) "Go now." 2 =
      [(false, [("Go", true), (" ", false), ("now.", true)])] := by decide
example :
    stripHighlights (annotate (fun _ => none) (fun _ => 4) "Go  now. Stop." 2) =
      "Go  now. Stop." := by decide

/-- A tagged zone: the dictionaries `{"text": ..., "label": ...}` stored
in `st.session_state.zones`. -/
structure Zone where
  text : String
  label : String
deriving DecidableEq, Repr

/-- Model of the `btn_add` handler: on non-blank (post-strip) input the
stripped text is appended to the registry as a new zone; on blank input
the registry is untouched and a `st.warning` message is surfaced.  The
result pairs the new registry with the optional warning message. -/
def btn_add_handler (zones : List Zone) (zone_text_input zone_type_sel : String) :
    List Zone × Option String :=
  if !(pyStripStr zone_text_input).isEmpty then
    (zones ++ [⟨pyStripStr zone_text_input, zone_type_sel⟩], none)
  else
    (zones, some "Please paste some text into the Zone Text box before clicking Add Zone.")

/-- Model of the zone delete handler: `st.session_state.zones.pop(idx)`. -/
def zone_delete_handler (zones : List Zone) (idx : Nat) : List Zone :=
  zones.eraseIdx idx

/-- Model of the `btn_clear` handler: `st.session_state.zones.clear()`. -/
def btn_clear_handler (_zones : List Zone) : List Zone :=
  []

/-- Python `int(target)`: truncation toward zero. -/
def pyInt (q : ℚ) : ℤ :=
  if 0 ≤ q then q.floor else q.ceil

/-- One row of the summary table. -/
structure SummaryRow where
  zoneType : String
  words : Nat
  estGrade : ℚ
  targetGrade : ℤ
  status : String
deriving DecidableEq, Repr

/-- Model of `zone_summary_row(zone, target)`.  The word count is the
number of `re.findall(r"\b[a-zA-Z]+\b", text)` matches; the grade is the
whole-zone `fk_grade`; the status compares the grade with the target. -/
def zone_summary_row (ts : String → Option ℚ) (zone : Zone) (target : ℚ) : SummaryRow :=
  { zoneType := zone.label
    words := (summaryWords zone.text.data).length
    estGrade := fk_grade ts zone.text
    targetGrade := pyInt target
    status := if fk_grade ts zone.text ≤ target then "✅ On Target" else "⚠️ Above Target" }

/-- Number of alphabetic-run word tokens of a text span (the spec's
`wordCount` for the Grade Scorer). -/
def wordCount (t : String) : Nat :=
  (wordTokens t.data).length

/-- Number of sentences of a text span, via the Sentence Segmenter. -/
def sentenceCount (t : String) : Nat :=
  (split_into_sentences t).length

/-- Sum of the Syllable Estimator over the alphabetic-run word tokens of
a text span. -/
def syllableSum (sy : String → Nat) (t : String) : Nat :=
  ((wordTokens t.data).map (fun w => count_syllables sy (String.mk w))).sum

/-- Modelled from the spec: `textstat.flesch_kincaid_grade`.  The
textstat library is an external dependency whose source is not part of
this repository; the spec describes the grade computation as the
Flesch–Kincaid formula
`0.39 × (wordCount / sentenceCount) + 11.8 × (syllableCount / wordCount) − 15.59`
over the Sentence Segmenter (4.1) and the Syllable Estimator (4.2), with
a division-by-zero failure (modelled as `none`, caught by `fk_grade`)
when there are no words or no sentences. -/
def textstat_flesch_kincaid_grade (sy : String → Nat) (t : String) : Option ℚ :=
  if wordCount t = 0 ∨ sentenceCount t = 0 then none
  else
    some ((39 / 100 : ℚ) * ((wordCount t : ℚ) / (sentenceCount t : ℚ))
      + (118 / 10 : ℚ) * ((syllableSum sy t : ℚ) / (wordCount t : ℚ)) - 1559 / 100)

/-- Grade Scorer of the spec: `fk_grade` running on the modelled
textstat oracle. -/
def gradeScore (sy : String → Nat) (t : String) : ℚ :=
  fk_grade (textstat_flesch_kincaid_grade sy) t

/-- No sentence boundary matches anywhere in `l` (including at its last
character). -/
def noSplit : List Char → Bool
  | [] => true
  | c :: rest => !(isTerm c && sepStarts rest) && noSplit rest

/-- No sentence boundary matches at any character of `l` except possibly
the last one. -/
def noSplitButLast : List Char → Bool
  | [] => true
  | [_] => true
  | c :: d :: rest => !(isTerm c && sepStarts (d :: rest)) && noSplitButLast (d :: rest)

/-- Concatenation of a list of character lists. -/
def joinAll : List (List Char) → List Char
  | [] => []
  | r :: rs => r ++ joinAll rs

/-! ## Claim theorems: grade scorer and syllable estimator -/

/-- C3: for every string input and every behaviour of the textstat
oracle (including raising, modelled by `none`), the grade scorer
returns normally — it is a total function in the model, the `except`
branch yielding `0.0` — and its result is at least `0.0`. -/
theorem c3_grade_nonneg (ts : String → Option ℚ) (t : String) : 0 ≤ fk_grade ts t := by
  unfold fk_grade
  cases ts t with
  | none => exact le_refl 0
  | some g =>
    simp only
    split
    · exact le_refl 0
    · exact le_of_not_lt (by assumption)

/-- C4: for every word token and every behaviour of the syllapy oracle,
the syllable estimate is at least `1` when the token contains an
alphabetic character, and is `0` exactly when it contains none. -/
theorem c4_syllable_bounds (sy : String → Nat) (w : String) :
    ((∃ c ∈ w.data, isAsciiAlpha c = true) → 1 ≤ count_syllables sy w) ∧
    (count_syllables sy w = 0 ↔ ¬∃ c ∈ w.data, isAsciiAlpha c = true) := by
  by_cases h : w.data.filter isAsciiAlpha = []
  · have hno : ¬∃ c ∈ w.data, isAsciiAlpha c = true := by
      rw [List.filter_eq_nil_iff] at h
      rintro ⟨c, hc, hca⟩
      exact absurd hca (by simp [h c hc])
    have hz : count_syllables sy w = 0 := by
      unfold count_syllables
      simp [h]
    exact ⟨fun hex => absurd hex hno, by simp [hz, hno]⟩
  · have hyes : ∃ c ∈ w.data, isAsciiAlpha c = true := by
      rcases List.exists_mem_of_ne_nil _ h with ⟨c, hc⟩
      exact ⟨c, List.mem_of_mem_filter hc, List.of_mem_filter hc⟩
    have hne : ((w.data.filter isAsciiAlpha).map Char.toLower).isEmpty = false := by
      simp [h]
    have hres : 1 ≤ count_syllables sy w := by
      unfold count_syllables
      simp only [hne, Bool.false_eq_true, if_false]
      split
      · exact Nat.one_le_iff_ne_zero.mpr (by assumption)
      · exact le_max_left 1 _
    refine ⟨fun _ => hres, ?_, fun hcon => absurd hyes hcon⟩
    intro h0
    rw [h0] at hres
    exact absurd hres (by decide)

/-- C4 witness: `"cat"` contains a letter and estimates to at least one
syllable. -/
theorem c4_syllable_bounds_witness :
    (∃ c ∈ ("cat" : String).data, isAsciiAlpha c = true) ∧
      1 ≤ count_syllables (fun _ => 0) "cat" :=
  ⟨by decide, (c4_syllable_bounds (fun _ => 0) "cat").1 (by decide)⟩

/-- Clamping written as an `if` agrees with `max`. -/
theorem ite_lt_zero_eq_max (r : ℚ) : (if r < 0 then 0 else r) = max r 0 := by
  rcases lt_or_le r 0 with h | h
  · rw [if_pos h, max_eq_right h.le]
  · rw [if_neg (not_lt.mpr h), max_eq_left h]

/-- C1: the grade score of a span is the Flesch–Kincaid formula over the
Sentence Segmenter and Syllable Estimator, rounded to one decimal and
clamped to a minimum of `0.0`, and it is `0.0` outright when the span
has no words or no sentences.  (The textstat library is modelled from
the spec; see `textstat_flesch_kincaid_grade`.) -/
theorem c1_grade_formula (sy : String → Nat) (t : String) :
    ((wordCount t = 0 ∨ sentenceCount t = 0) → gradeScore sy t = 0) ∧
    (wordCount t ≠ 0 → sentenceCount t ≠ 0 →
      gradeScore sy t =
        max (roundTo1 ((39 / 100 : ℚ) * ((wordCount t : ℚ) / (sentenceCount t : ℚ))
          + (118 / 10 : ℚ) * ((syllableSum sy t : ℚ) / (wordCount t : ℚ))
          - 1559 / 100)) 0) := by
  constructor
  · intro h
    unfold gradeScore fk_grade textstat_flesch_kincaid_grade
    rw [if_pos h]
  · intro h1 h2
    have hcond : ¬(wordCount t = 0 ∨ sentenceCount t = 0) := by
      rintro (h | h)
      · exact h1 h
      · exact h2 h
    unfold gradeScore fk_grade textstat_flesch_kincaid_grade
    rw [if_neg hcond]
    exact ite_lt_zero_eq_max _

/-- C1 witness: on `"Stop now."` with a constant one-syllable oracle the
non-degenerate branch applies. -/
theorem c1_grade_formula_witness :
    wordCount "Stop now." ≠ 0 ∧ sentenceCount "Stop now." ≠ 0 ∧
      gradeScore (fun _ => 1) "Stop now." =
        max (roundTo1 ((39 / 100 : ℚ)
          * ((wordCount "Stop now." : ℚ) / (sentenceCount "Stop now." : ℚ))
          + (118 / 10 : ℚ)
          * ((syllableSum (fun _ => 1) "Stop now." : ℚ) / (wordCount "Stop now." : ℚ))
          - 1559 / 100)) 0 :=
  ⟨by decide, by decide,
    (c1_grade_formula (fun _ => 1) "Stop now.").2 (by decide) (by decide)⟩

/-! ## Claim theorems: segmenter scenario (C2) -/

/-- C2 (counterexample): the Segmenter does not return the two sentences
claimed for the Dr.-Smith input. -/
theorem c2_counterexample :
    split_into_sentences "Dr. Smith calculated the answer. The cat sat." ≠
      ["Dr. Smith calculated the answer.", "The cat sat."] := by decide

/-- C2 (amended): on the Dr.-Smith input the Segmenter returns exactly
three sentences — the boundary rule also fires after `"Dr."` because the
next word starts with a capital letter. -/
theorem c2_segmenter_dr_smith :
    split_into_sentences "Dr. Smith calculated the answer. The cat sat." =
      ["Dr.", "Smith calculated the answer.", "The cat sat."] := by decide

/-! ## Claim theorems: registry (C9, C10) -/

/-- C9: blank (post-trim) zone text is rejected at the registry
boundary: the zone list is returned unchanged, no zone is appended, and
a user-facing warning message is produced instead of a crash. -/
theorem c9_blank_rejected (zones : List Zone) (input label : String)
    (h : pyStripStr input = "") :
    (btn_add_handler zones input label).1 = zones ∧
    (btn_add_handler zones input label).2 =
      some "Please paste some text into the Zone Text box before clicking Add Zone." := by
  have he : (pyStripStr input).isEmpty = true := by rw [h]; rfl
  unfold btn_add_handler
  rw [he]
  exact ⟨rfl, rfl⟩

/-- C9 witness: whitespace-only input is rejected and the registry stays
empty. -/
theorem c9_blank_rejected_witness :
    pyStripStr "   " = "" ∧
      ((btn_add_handler [] "   " "Dialogue").1 = [] ∧
       (btn_add_handler [] "   " "Dialogue").2 =
         some "Please paste some text into the Zone Text box before clicking Add Zone.") :=
  ⟨by decide, c9_blank_rejected [] "   " "Dialogue" (by decide)⟩

/-- C10: removing the zone at a valid position `i` from a registry of
`n` zones yields `n − 1` zones, namely the zones before `i` followed by
the zones after `i`, and the result is a sublist of the original
registry (the relative order of the remaining zones is unchanged). -/
theorem c10_remove_preserves_order (zones : List Zone) (i : Nat) (h : i < zones.length) :
    (zone_delete_handler zones i).length = zones.length - 1 ∧
    zone_delete_handler zones i = zones.take i ++ zones.drop (i + 1) ∧
    List.Sublist (zone_delete_handler zones i) zones := by
  refine ⟨?_, List.eraseIdx_eq_take_drop_succ zones i, List.eraseIdx_sublist zones i⟩
  show (zones.eraseIdx i).length = zones.length - 1
  rw [List.length_eraseIdx]
  simp [h]

/-- C10 witness: deleting position `1` from a three-zone registry. -/
theorem c10_remove_preserves_order_witness :
    1 < ([⟨"a", "Dialogue"⟩, ⟨"b", "Narration"⟩, ⟨"c", "Math Problem"⟩] : List Zone).length ∧
    ((zone_delete_handler [⟨"a", "Dialogue"⟩, ⟨"b", "Narration"⟩, ⟨"c", "Math Problem"⟩] 1).length
        = ([⟨"a", "Dialogue"⟩, ⟨"b", "Narration"⟩, ⟨"c", "Math Problem"⟩] : List Zone).length - 1 ∧
      zone_delete_handler [⟨"a", "Dialogue"⟩, ⟨"b", "Narration"⟩, ⟨"c", "Math Problem"⟩] 1
        = ([⟨"a", "Dialogue"⟩, ⟨"b", "Narration"⟩, ⟨"c", "Math Problem"⟩] : List Zone).take 1
          ++ ([⟨"a", "Dialogue"⟩, ⟨"b", "Narration"⟩, ⟨"c", "Math Problem"⟩] : List Zone).drop 2 ∧
      List.Sublist
        (zone_delete_handler [⟨"a", "Dialogue"⟩, ⟨"b", "Narration"⟩, ⟨"c", "Math Problem"⟩] 1)
        [⟨"a", "Dialogue"⟩, ⟨"b", "Narration"⟩, ⟨"c", "Math Problem"⟩]) :=
  ⟨by decide,
    c10_remove_preserves_order [⟨"a", "Dialogue"⟩, ⟨"b", "Narration"⟩, ⟨"c", "Math Problem"⟩] 1
      (by decide)⟩

/-! ## Claim theorems: summary word count (C7) -/

/-- C7 (counterexample): for the zone text `"abc1"` the summary word
count is `0` — the `\b`-bounded regex rejects a letter run adjacent to a
digit — while the text has one maximal alphabetic run. -/
theorem c7_counterexample :
    ¬((zone_summary_row (fun _ => none) ⟨"abc1", "Narration"⟩ 1).words =
        (wordTokens (String.data "abc1")).length) := by decide

/-- The `\b[a-zA-Z]+\b` scanner agrees with the maximal-alphabetic-run
scanner on text without digits and underscores. -/
theorem bwAux_eq_wtAux (l : List Char) (h : ∀ c ∈ l, c.isDigit = false ∧ c ≠ '_') :
    ∀ acc, bwAux false acc l = wtAux acc l ∧ (acc ≠ [] → bwAux true acc l = wtAux acc l) := by
  induction l with
  | nil => exact fun acc => ⟨rfl, fun _ => rfl⟩
  | cons c rest ih =>
    intro acc
    have hc := h c (List.mem_cons_self c rest)
    have hrest : ∀ x ∈ rest, x.isDigit = false ∧ x ≠ '_' :=
      fun x hx => h x (List.mem_cons_of_mem c hx)
    have hu : (c == '_') = false := by
      rcases hc with ⟨-, hu⟩
      simpa using hu
    have hw : isPyWordChar c = isAsciiAlpha c := by
      unfold isPyWordChar
      rw [hc.1, hu]
      simp
    by_cases ha : isAsciiAlpha c = true
    · rcases acc with - | ⟨a, as⟩
      · refine ⟨?_, fun hacc => absurd rfl hacc⟩
        show bwAux false [] (c :: rest) = wtAux [] (c :: rest)
        simp only [bwAux, wtAux, ha, List.isEmpty_nil, if_true, if_false, Bool.false_eq_true]
        exact (ih hrest [c]).2 (by simp)
      · constructor
        · show bwAux false (a :: as) (c :: rest) = wtAux (a :: as) (c :: rest)
          simp only [bwAux, wtAux, ha, List.isEmpty_cons, if_true, if_false, Bool.false_eq_true]
          exact (ih hrest (c :: a :: as)).2 (by simp)
        · intro _
          show bwAux true (a :: as) (c :: rest) = wtAux (a :: as) (c :: rest)
          simp only [bwAux, wtAux, ha, List.isEmpty_cons, if_true, if_false, Bool.false_eq_true]
          exact (ih hrest (c :: a :: as)).2 (by simp)
    · have ha' : isAsciiAlpha c = false := by simpa using ha
      rcases acc with - | ⟨a, as⟩
      · refine ⟨?_, fun hacc => absurd rfl hacc⟩
        show bwAux false [] (c :: rest) = wtAux [] (c :: rest)
        simp only [bwAux, wtAux, ha', List.isEmpty_nil, if_true, if_false, Bool.false_eq_true,
          hw]
        exact (ih hrest []).1
      · constructor
        · show bwAux false (a :: as) (c :: rest) = wtAux (a :: as) (c :: rest)
          simp only [bwAux, wtAux, ha', List.isEmpty_cons, if_true, if_false, Bool.false_eq_true,
            hw]
          rw [(ih hrest []).1]
        · intro _
          show bwAux true (a :: as) (c :: rest) = wtAux (a :: as) (c :: rest)
          simp only [bwAux, wtAux, ha', List.isEmpty_cons, if_true, if_false, Bool.false_eq_true,
            hw]
          rw [(ih hrest []).1]

/-- C7 (amended): for every zone whose text consists of ASCII
characters and contains no digits and no underscores, the summary word
count equals the number of maximal alphabetic runs of the zone text.
(The ASCII restriction is needed because Python's `\b` also treats
Unicode letters as word characters: for `"abcé"` the code counts no
words although the text has one maximal alphabetic run.) -/
theorem c7_amended (ts : String → Option ℚ) (zone : Zone) (target : ℚ)
    (h : ∀ c ∈ zone.text.data, isAsciiChar c = true ∧ c.isDigit = false ∧ c ≠ '_') :
    (zone_summary_row ts zone target).words = (wordTokens zone.text.data).length := by
  show (summaryWords zone.text.data).length = (wordTokens zone.text.data).length
  unfold summaryWords wordTokens
  rw [(bwAux_eq_wtAux zone.text.data (fun c hc => ⟨(h c hc).2.1, (h c hc).2.2⟩) []).1]

/-- C7 witness: an ASCII, digit-free zone text where the two counts
agree. -/
theorem c7_amended_witness :
    (∀ c ∈ ("Big cats run" : String).data,
        isAsciiChar c = true ∧ c.isDigit = false ∧ c ≠ '_') ∧
      (zone_summary_row (fun _ => none) ⟨"Big cats run", "Dialogue"⟩ 1).words =
        (wordTokens (("Big cats run" : String)).data).length :=
  ⟨by decide, c7_amended (fun _ => none) ⟨"Big cats run", "Dialogue"⟩ 1 (by decide)⟩

/-! ## Claim theorems: the annotator's highlight layers (C6) -/

/-- A member of the zip of a mapped list with the list itself pairs each
element with its image. -/
theorem mem_zip_map_eq {α β : Type} (f : α → β) :
    ∀ (l : List α) (p : β × α), p ∈ (l.map f).zip l → p.1 = f p.2 := by
  intro l
  induction l with
  | nil => intro p h; simp at h
  | cons a l ih =>
    intro p h
    rw [List.map_cons, List.zip_cons_cons] at h
    rcases List.mem_cons.mp h with rfl | h'
    · rfl
    · exact ih p h'

/-- C6: in the Annotator a sentence is flagged above-target exactly when
its grade exceeds the target, a run is flagged heavy exactly when its
alphabetic-stripped content is non-empty with a syllable estimate of at
least three, and the two layers are independent: the above-target flags
do not depend on the syllable oracle, and the annotated runs with their
heavy flags do not depend on the grade oracle or the target. -/
theorem c6_highlight_layers (ts ts2 : String → Option ℚ) (sy sy2 : String → Nat)
    (t : String) (target target2 : ℚ) :
    (annotate ts sy t target).length = (split_into_sentences t).length ∧
    (∀ p ∈ (annotate ts sy t target).zip (split_into_sentences t),
      (p.1.1 = true ↔ target < fk_grade ts p.2) ∧
      (∀ tb ∈ p.1.2,
        tb.2 = true ↔
          (alphaOnly tb.1.data ≠ [] ∧
            3 ≤ count_syllables sy (String.mk (alphaOnly tb.1.data))))) ∧
    (annotate ts sy2 t target).map Prod.fst = (annotate ts sy t target).map Prod.fst ∧
    (annotate ts2 sy t target2).map Prod.snd = (annotate ts sy t target).map Prod.snd := by
  refine ⟨List.length_map _ _, ?_, ?_, ?_⟩
  · intro p hp
    unfold annotate at hp
    have hp1 := mem_zip_map_eq _ _ p hp
    constructor
    · rw [hp1]
      simp
    · intro tb htb
      rw [hp1] at htb
      unfold annotateSentence at htb
      rcases List.mem_map.mp htb with ⟨tok, -, rfl⟩
      show heavyTok sy tok = true ↔ _
      unfold heavyTok
      simp [List.isEmpty_iff]
  · unfold annotate
    rw [List.map_map, List.map_map]
    rfl
  · unfold annotate
    rw [List.map_map, List.map_map]
    rfl

/-! ## Segmenter scanner lemmas

The development below establishes the recursion equations of `seg`
(the sentence-boundary split) and the structural invariants of its
parts, leading to the re-segmentation stability (C8) and annotation
round-trip (C5) theorems. -/

/-- Unfolding of `segM` in skip mode: the pending separator whitespace
is dropped and scanning resumes in normal mode. -/
theorem segM_skip : ∀ (s acc : List Char),
    segM true acc s = segM false acc (s.dropWhile pyIsSpace) := by
  intro s
  induction s with
  | nil => intro acc; rfl
  | cons c rest ih =>
    intro acc
    rw [List.dropWhile_cons]
    by_cases hws : pyIsSpace c = true
    · rw [if_pos hws]
      rw [show segM true acc (c :: rest) = segM true acc rest by simp [segM, hws]]
      exact ih acc
    · have hws' : pyIsSpace c = false := by simpa using hws
      rw [if_neg (by simp [hws'])]
      simp [segM, hws']

/-- The scanner always returns at least one part. -/
theorem segM_ne_nil : ∀ (s : List Char) (skip : Bool) (acc : List Char),
    segM skip acc s ≠ [] := by
  intro s
  induction s with
  | nil => intro skip acc; simp [segM]
  | cons c rest ih =>
    intro skip acc
    unfold segM
    split
    · exact ih true acc
    · split
      · exact List.cons_ne_nil _ _
      · exact ih false (c :: acc)

/-- One-step unfolding of `segM` in normal mode. -/
theorem segM_false_cons (acc : List Char) (c : Char) (rest : List Char) :
    segM false acc (c :: rest) =
      if isTerm c && sepStarts rest then (c :: acc).reverse :: segM true [] rest
      else segM false (c :: acc) rest := by
  simp [segM]

/-- The accumulator only prefixes the first part of the scan. -/
theorem segM_acc : ∀ (s acc p : List Char) (ps : List (List Char)),
    segM false [] s = p :: ps → segM false acc s = (acc.reverse ++ p) :: ps := by
  intro s
  induction s with
  | nil =>
    intro acc p ps h
    simp [segM] at h
    rw [show segM false acc [] = [acc.reverse] from rfl, h.1, h.2]
    simp
  | cons c rest ih =>
    intro acc p ps h
    rw [segM_false_cons] at h ⊢
    by_cases hc : (isTerm c && sepStarts rest) = true
    · rw [if_pos hc] at h ⊢
      simp only [List.reverse_cons, List.reverse_nil, List.nil_append] at h ⊢
      injection h with h1 h2
      rw [← h1, ← h2]
    · rw [if_neg (by simp [hc])] at h ⊢
      rcases hr : segM false [] rest with - | ⟨p0, ps0⟩
      · exact absurd hr (segM_ne_nil rest false [])
      · have h1 := ih [c] p0 ps0 hr
        rw [h1] at h
        injection h with h2 h3
        rw [ih (c :: acc) p0 ps0 hr, ← h2, ← h3]
        simp

/-- Recursion equation of `seg` at a sentence boundary. -/
theorem seg_cons_split {c : Char} {rest : List Char}
    (h : (isTerm c && sepStarts rest) = true) :
    seg (c :: rest) = [c] :: seg (rest.dropWhile pyIsSpace) := by
  unfold seg
  rw [segM_false_cons, if_pos h, segM_skip]
  simp

/-- Recursion equation of `seg` away from boundaries. -/
theorem seg_cons_no {c : Char} {rest : List Char}
    (h : (isTerm c && sepStarts rest) = false) {p : List Char} {ps : List (List Char)}
    (hr : seg rest = p :: ps) : seg (c :: rest) = (c :: p) :: ps := by
  unfold seg at hr ⊢
  rw [segM_false_cons, if_neg (by simp [h]), segM_acc rest [c] p ps hr]
  simp

/-- `seg` always returns at least one part. -/
theorem seg_ne_nil (s : List Char) : seg s ≠ [] :=
  segM_ne_nil s false []

/-- Every element of a `takeWhile` satisfies the predicate. -/
theorem takeWhile_all {p : Char → Bool} : ∀ (l : List Char) (x : Char),
    x ∈ l.takeWhile p → p x = true := by
  intro l
  induction l with
  | nil => intro x h; simp at h
  | cons c l' ih =>
    intro x h
    rw [List.takeWhile_cons] at h
    by_cases pc : p c = true
    · rw [if_pos pc] at h
      rcases List.mem_cons.mp h with rfl | h'
      · exact pc
      · exact ih x h'
    · rw [if_neg (by simp [pc])] at h
      simp at h

/-- `dropWhile` over an append stops inside the left list if some left
element fails the predicate. -/
theorem dropWhile_append_ex {p : Char → Bool} : ∀ (l m : List Char),
    (∃ c ∈ l, p c = false) →
    (l ++ m).dropWhile p = l.dropWhile p ++ m ∧ l.dropWhile p ≠ [] := by
  intro l
  induction l with
  | nil => rintro m ⟨c, hc, -⟩; simp at hc
  | cons c l' ih =>
    intro m hex
    by_cases pc : p c = true
    · have hex' : ∃ x ∈ l', p x = false := by
        rcases hex with ⟨x, hx, hpx⟩
        rcases List.mem_cons.mp hx with rfl | hx'
        · exact absurd pc (by simp [hpx])
        · exact ⟨x, hx', hpx⟩
      rw [List.cons_append, List.dropWhile_cons, if_pos pc, List.dropWhile_cons, if_pos pc]
      exact ih m hex'
    · rw [List.cons_append, List.dropWhile_cons, if_neg pc, List.dropWhile_cons, if_neg pc]
      exact ⟨rfl, List.cons_ne_nil _ _⟩

/-- `takeWhile` over an append stops inside the left list if some left
element fails the predicate. -/
theorem takeWhile_append_ex {p : Char → Bool} : ∀ (l m : List Char),
    (∃ c ∈ l, p c = false) → (l ++ m).takeWhile p = l.takeWhile p := by
  intro l
  induction l with
  | nil => rintro m ⟨c, hc, -⟩; simp at hc
  | cons c l' ih =>
    intro m hex
    by_cases pc : p c = true
    · have hex' : ∃ x ∈ l', p x = false := by
        rcases hex with ⟨x, hx, hpx⟩
        rcases List.mem_cons.mp hx with rfl | hx'
        · exact absurd pc (by simp [hpx])
        · exact ⟨x, hx', hpx⟩
      rw [List.cons_append, List.takeWhile_cons, if_pos pc, List.takeWhile_cons, if_pos pc,
        ih m hex']
    · rw [List.cons_append, List.takeWhile_cons, if_neg pc, List.takeWhile_cons, if_neg pc]

/-- A separator test is unaffected by what follows, provided the scanned
list contains a non-whitespace character. -/
theorem sepStarts_append (l m : List Char) (h : ∃ c ∈ l, pyIsSpace c = false) :
    sepStarts (l ++ m) = sepStarts l := by
  unfold sepStarts
  rw [takeWhile_append_ex l m h, (dropWhile_append_ex l m h).1]
  rcases hd : l.dropWhile pyIsSpace with - | ⟨d, ds⟩
  · exact absurd hd (dropWhile_append_ex l m h).2
  · simp only [List.cons_append]

/-- The first part of a scan is a prefix of the input. -/
theorem seg_pre_aux : ∀ (n : Nat) (s : List Char), s.length ≤ n →
    ∀ (p : List Char) (ps : List (List Char)), seg s = p :: ps → ∃ tl, s = p ++ tl := by
  intro n
  induction n with
  | zero =>
    intro s hs p ps h
    have hnil : s = [] := List.length_eq_zero.mp (Nat.le_zero.mp hs)
    subst hnil
    rw [show seg [] = [[]] from rfl] at h
    injection h with h1 h2
    exact ⟨[], by simp [← h1]⟩
  | succ n ih =>
    intro s hs p ps h
    rcases s with - | ⟨c, rest⟩
    · rw [show seg [] = [[]] from rfl] at h
      injection h with h1 h2
      exact ⟨[], by simp [← h1]⟩
    · by_cases hc : (isTerm c && sepStarts rest) = true
      · rw [seg_cons_split hc] at h
        injection h with h1 h2
        exact ⟨rest, by rw [← h1]; rfl⟩
      · rcases hr : seg rest with - | ⟨p0, ps0⟩
        · exact absurd hr (seg_ne_nil rest)
        · rw [seg_cons_no (by simpa using hc) hr] at h
          injection h with h1 h2
          have hlen : rest.length ≤ n := Nat.le_of_succ_le_succ (by simpa using hs)
          rcases ih rest hlen p0 ps0 hr with ⟨tl, htl⟩
          exact ⟨tl, by rw [← h1, htl]; rfl⟩

/-- The first part of a scan is a prefix of the input. -/
theorem seg_pre {s p : List Char} {ps : List (List Char)} (h : seg s = p :: ps) :
    ∃ tl, s = p ++ tl :=
  seg_pre_aux s.length s le_rfl p ps h

/-- On nonempty input the first part of the scan is nonempty. -/
theorem seg_head_ne {s : List Char} (hs : s ≠ []) {p : List Char} {ps : List (List Char)}
    (h : seg s = p :: ps) : p ≠ [] := by
  rcases s with - | ⟨c, rest⟩
  · exact absurd rfl hs
  · by_cases hc : (isTerm c && sepStarts rest) = true
    · rw [seg_cons_split hc] at h
      injection h with h1 _
      rw [← h1]
      exact List.cons_ne_nil _ _
    · rcases hr : seg rest with - | ⟨p0, ps0⟩
      · exact absurd hr (seg_ne_nil rest)
      · rw [seg_cons_no (by simpa using hc) hr] at h
        injection h with h1 _
        rw [← h1]
        exact List.cons_ne_nil _ _

/-- A one-part scan returns the whole input. -/
theorem seg_single_aux : ∀ (n : Nat) (s : List Char), s.length ≤ n →
    ∀ p : List Char, seg s = [p] → s = p := by
  intro n
  induction n with
  | zero =>
    intro s hs p h
    have hnil : s = [] := List.length_eq_zero.mp (Nat.le_zero.mp hs)
    subst hnil
    rw [show seg [] = [[]] from rfl] at h
    injection h with h1 h2
  | succ n ih =>
    intro s hs p h
    rcases s with - | ⟨c, rest⟩
    · rw [show seg [] = [[]] from rfl] at h
      injection h with h1 h2
    · by_cases hc : (isTerm c && sepStarts rest) = true
      · rw [seg_cons_split hc] at h
        injection h with h1 h2
        exact absurd h2 (seg_ne_nil _)
      · rcases hr : seg rest with - | ⟨p0, ps0⟩
        · exact absurd hr (seg_ne_nil rest)
        · rw [seg_cons_no (by simpa using hc) hr] at h
          injection h with h1 h2
          have hlen : rest.length ≤ n := Nat.le_of_succ_le_succ (by simpa using hs)
          have : rest = p0 := ih rest hlen p0 (by rw [hr, h2])
          rw [← h1, this]

/-- A one-part scan returns the whole input. -/
theorem seg_single {s p : List Char} (h : seg s = [p]) : s = p :=
  seg_single_aux s.length s le_rfl p h

/-- A boundary-free list scans to itself. -/
theorem noSplit_seg : ∀ (s : List Char), noSplit s = true → seg s = [s] := by
  intro s
  induction s with
  | nil => intro _; rfl
  | cons c rest ih =>
    intro h
    unfold noSplit at h
    rw [Bool.and_eq_true] at h
    have hc : (isTerm c && sepStarts rest) = false := by
      cases hb : (isTerm c && sepStarts rest) with
      | false => rfl
      | true => rw [hb] at h; exact absurd h.1 (by decide)
    exact seg_cons_no hc (ih h.2)

/-- Structure of a scan: either the input is a single part, or it is the
first part, a nonempty whitespace separator run, and a remainder that
scans to the remaining parts. -/
theorem seg_structure_aux : ∀ (n : Nat) (s : List Char), s.length ≤ n →
    ∀ (p : List Char) (ps : List (List Char)), seg s = p :: ps →
    (ps = [] ∧ s = p) ∨
    (∃ w rest, ps ≠ [] ∧ s = p ++ w ++ rest ∧ w ≠ [] ∧
      (∀ c ∈ w, pyIsSpace c = true) ∧ seg rest = ps) := by
  intro n
  induction n with
  | zero =>
    intro s hs p ps h
    have hnil : s = [] := List.length_eq_zero.mp (Nat.le_zero.mp hs)
    subst hnil
    rw [show seg [] = [[]] from rfl] at h
    injection h with h1 h2
    exact Or.inl ⟨h2.symm, h1⟩
  | succ n ih =>
    intro s hs p ps h
    rcases s with - | ⟨c, rest⟩
    · rw [show seg [] = [[]] from rfl] at h
      injection h with h1 h2
      exact Or.inl ⟨h2.symm, h1⟩
    · by_cases hc : (isTerm c && sepStarts rest) = true
      · rw [seg_cons_split hc] at h
        injection h with h1 h2
        have hsep : sepStarts rest = true := by
          rw [Bool.and_eq_true] at hc
          exact hc.2
        have hw : rest.takeWhile pyIsSpace ≠ [] := by
          unfold sepStarts at hsep
          rw [Bool.and_eq_true] at hsep
          simpa using hsep.1
        refine Or.inr ⟨rest.takeWhile pyIsSpace, rest.dropWhile pyIsSpace, ?_, ?_, hw,
          fun x hx => takeWhile_all rest x hx, h2⟩
        · rw [← h2]
          exact seg_ne_nil _
        · rw [← h1]
          simp [List.takeWhile_append_dropWhile]
      · rcases hr : seg rest with - | ⟨p0, ps0⟩
        · exact absurd hr (seg_ne_nil rest)
        · rw [seg_cons_no (by simpa using hc) hr] at h
          injection h with h1 h2
          have hlen : rest.length ≤ n := Nat.le_of_succ_le_succ (by simpa using hs)
          rcases ih rest hlen p0 ps0 hr with ⟨hps0, hrp⟩ | ⟨w, rest2, hne, heq, hwne, hall, hseg⟩
          · refine Or.inl ⟨by rw [← h2, hps0], ?_⟩
            rw [← h1, hrp]
          · refine Or.inr ⟨w, rest2, by rw [← h2]; exact hne, ?_, hwne, hall,
              by rw [← h2]; exact hseg⟩
            rw [← h1, heq]
            simp

/-- Structure of a scan (packaged form of `seg_structure_aux`). -/
theorem seg_structure {s p : List Char} {ps : List (List Char)} (h : seg s = p :: ps) :
    (ps = [] ∧ s = p) ∨
    (∃ w rest, ps ≠ [] ∧ s = p ++ w ++ rest ∧ w ≠ [] ∧
      (∀ c ∈ w, pyIsSpace c = true) ∧ seg rest = ps) :=
  seg_structure_aux s.length s le_rfl p ps h

/-- C6 witness: a concrete zipped sentence whose above-target flag
matches its grade comparison. -/
theorem c6_highlight_layers_witness :
    ((false, [("Go", true), (" ", false), ("now.", true)]), ("Go now." : String)) ∈
        (annotate (fun _ => none) (fun _ => 4) "Go now." 0).zip
          (split_into_sentences "Go now.") ∧
      (((false, [("Go", true), (" ", false), ("now.", true)]), ("Go now." : String)).1.1 = true ↔
        (0 : ℚ) < fk_grade (fun _ => none) "Go now.") :=
  ⟨by decide,
    ((c6_highlight_layers (fun _ => none) (fun _ => none) (fun _ => 4) (fun _ => 4)
        "Go now." 0 0).2.1 _ (by decide)).1⟩



/-! ## List and character-class helper lemmas -/

/-- The default of `getLastD` is irrelevant for nonempty lists. -/
theorem getLastD_irrel {α : Type} : ∀ (l : List α), l ≠ [] → ∀ d d' : α,
    l.getLastD d = l.getLastD d' := by
  intro l
  induction l with
  | nil => intro h; exact absurd rfl h
  | cons a t ih =>
    intro _ d d'
    rcases t with - | ⟨b, t'⟩
    · rfl
    · have e1 : (a :: b :: t').getLastD d = (b :: t').getLastD a := List.getLastD_cons ..
      have e2 : (a :: b :: t').getLastD d' = (b :: t').getLastD a := List.getLastD_cons ..
      rw [e1, e2]

/-- The defaulted last element of a nonempty list is a member. -/
theorem getLastD_mem {α : Type} : ∀ (l : List α), l ≠ [] → ∀ d : α, l.getLastD d ∈ l := by
  intro l
  induction l with
  | nil => intro h; exact absurd rfl h
  | cons a t ih =>
    intro _ d
    rcases ht : t with - | ⟨b, t'⟩
    · simp
    · rw [List.getLastD_cons]
      exact List.mem_cons_of_mem a (ht ▸ ih (by simp [ht]) a)

/-- `getLastD` of an append with nonempty right part. -/
theorem getLastD_append {α : Type} : ∀ (a b : List α), b ≠ [] → ∀ d : α,
    (a ++ b).getLastD d = b.getLastD d := by
  intro a
  induction a with
  | nil => intro b hb d; rfl
  | cons x a' ih =>
    intro b hb d
    rw [List.cons_append, List.getLastD_cons, ih b hb x]
    exact getLastD_irrel b hb x d

/-- Prepending to a nonempty list does not change its defaulted last
element. -/
theorem getLastD_cons_ne {α : Type} {p : List α} (hp : p ≠ []) (c : α) (d : α) :
    (c :: p).getLastD d = p.getLastD d := by
  rw [show c :: p = [c] ++ p from rfl]
  exact getLastD_append [c] p hp d

/-- `headD` of an append with nonempty left part. -/
theorem headD_append {α : Type} {a : List α} (ha : a ≠ []) (b : List α) (d : α) :
    (a ++ b).headD d = a.headD d := by
  rcases a with - | ⟨x, a'⟩
  · exact absurd rfl ha
  · rfl

/-- The defaulted head of a reversed list is its defaulted last element. -/
theorem headD_reverse {α : Type} : ∀ (l : List α) (d : α), l.reverse.headD d = l.getLastD d := by
  intro l
  induction l with
  | nil => intro d; rfl
  | cons x xs ih =>
    intro d
    rw [List.reverse_cons]
    rcases hxs : xs with - | ⟨b, t⟩
    · rfl
    · rw [← hxs, headD_append (by simp [hxs]) [x] d, ih d, List.getLastD_cons, hxs,
        getLastD_irrel (b :: t) (List.cons_ne_nil _ _) x d]

/-- The defaulted last element of a reversed list is its defaulted head. -/
theorem getLastD_reverse {α : Type} (l : List α) (d : α) :
    l.reverse.getLastD d = l.headD d := by
  rw [← headD_reverse l.reverse d, List.reverse_reverse]

/-- `getLastD` agrees with `getLast` on nonempty lists. -/
theorem getLastD_eq_getLast {α : Type} : ∀ (l : List α) (h : l ≠ []) (d : α),
    l.getLastD d = l.getLast h := by
  intro l
  induction l with
  | nil => intro h; exact absurd rfl h
  | cons a t ih =>
    intro _ d
    rcases t with - | ⟨b, t'⟩
    · rfl
    · rw [List.getLastD_cons, List.getLast_cons (List.cons_ne_nil _ _),
        ih (List.cons_ne_nil _ _) a]

/-- The head of a surviving `dropWhile` fails the predicate. -/
theorem dropWhile_head {p : Char → Bool} : ∀ (l : List Char),
    l.dropWhile p ≠ [] → ∀ d, p ((l.dropWhile p).headD d) = false := by
  intro l
  induction l with
  | nil => intro h; exact absurd rfl h
  | cons c t ih =>
    intro h d
    by_cases pc : p c = true
    · rw [List.dropWhile_cons, if_pos pc] at h ⊢
      exact ih h d
    · rw [List.dropWhile_cons, if_neg pc] at h ⊢
      simpa using pc

/-- Mapping a pointwise-identity function is the identity. -/
theorem map_self_of {α : Type} (f : α → α) : ∀ (l : List α), (∀ x ∈ l, f x = x) →
    l.map f = l := by
  intro l
  induction l with
  | nil => intro _; rfl
  | cons a t ih =>
    intro h
    rw [List.map_cons, h a (List.mem_cons_self a t),
      ih (fun x hx => h x (List.mem_cons_of_mem a hx))]

/-- A nonempty list has `isEmpty` false. -/
theorem not_isEmpty_of_ne {α : Type} {p : List α} (h : p ≠ []) : (!p.isEmpty) = true := by
  rcases p with - | ⟨a, t⟩
  · exact absurd rfl h
  · rfl

/-- Sentence-terminal marks are not whitespace. -/
theorem isTerm_not_space {x : Char} (h : isTerm x = true) : pyIsSpace x = false := by
  unfold isTerm at h
  rw [Bool.or_eq_true, Bool.or_eq_true] at h
  rcases h with (h | h) | h
  · rw [eq_of_beq h]; decide
  · rw [eq_of_beq h]; decide
  · rw [eq_of_beq h]; decide

/-- Uppercase letters and quotes are not whitespace. -/
theorem upperQuote_not_space {x : Char} (h : isUpperQuote x = true) : pyIsSpace x = false := by
  unfold isUpperQuote at h
  rw [Bool.or_eq_true, Bool.or_eq_true] at h
  rcases h with (h | h) | h
  · rw [Bool.and_eq_true] at h
    have hA : 'A' ≤ x := of_decide_eq_true h.1
    have hne : ∀ c : Char, c < 'A' → (x == c) = false := fun c hc =>
      beq_eq_false_iff_ne.mpr (fun he => absurd hA (not_le.mpr (he ▸ hc)))
    unfold pyIsSpace
    rw [hne ' ' (by decide), hne '\t' (by decide), hne '\n' (by decide),
      hne '\x0d' (by decide), hne '\x0b' (by decide), hne '\x0c' (by decide)]
    decide
  · rw [eq_of_beq h]; decide
  · rw [eq_of_beq h]; decide

/-! ## Python strip lemmas -/

/-- A list whose ends are not whitespace is fixed by `pyStrip`. -/
theorem pyStrip_eq_self : ∀ {l : List Char}, pyIsSpace (l.headD ' ') = false →
    pyIsSpace (l.getLastD ' ') = false → pyStrip l = l := by
  intro l h1 h2
  rcases l with - | ⟨c, t⟩
  · rfl
  · unfold pyStrip
    have hd : (c :: t).dropWhile pyIsSpace = c :: t := by
      rw [List.dropWhile_cons, if_neg (by simp_all)]
    rw [hd]
    rcases hrv : (c :: t).reverse with - | ⟨x, xs⟩
    · exact absurd hrv (by simp)
    · have hgx : (c :: t).getLastD ' ' = x := by
        rw [← headD_reverse, hrv]
        rfl
      have hx : pyIsSpace x = false := by
        rw [hgx] at h2
        exact h2
      have hrd : List.dropWhile pyIsSpace (x :: xs) = x :: xs := by
        rw [List.dropWhile_cons, if_neg (by simp [hx])]
      rw [hrd, ← hrv, List.reverse_reverse]

/-- A nonempty `pyStrip` result has non-whitespace ends. -/
theorem pyStrip_head_last {l : List Char} (h : pyStrip l ≠ []) :
    pyIsSpace ((pyStrip l).headD ' ') = false ∧
    pyIsSpace ((pyStrip l).getLastD ' ') = false := by
  have hg : (l.dropWhile pyIsSpace).reverse.dropWhile pyIsSpace ≠ [] := by
    intro hnil
    apply h
    unfold pyStrip
    rw [hnil]
    rfl
  have hd1 : l.dropWhile pyIsSpace ≠ [] := by
    intro hnil
    apply hg
    rw [hnil]
    rfl
  constructor
  · show pyIsSpace
      (((l.dropWhile pyIsSpace).reverse.dropWhile pyIsSpace).reverse.headD ' ') = false
    rw [headD_reverse]
    have hsplit : ((l.dropWhile pyIsSpace).reverse.takeWhile pyIsSpace)
        ++ ((l.dropWhile pyIsSpace).reverse.dropWhile pyIsSpace)
        = (l.dropWhile pyIsSpace).reverse := List.takeWhile_append_dropWhile ..
    have hGR : ((l.dropWhile pyIsSpace).reverse.dropWhile pyIsSpace).getLastD ' '
        = (l.dropWhile pyIsSpace).reverse.getLastD ' ' := by
      conv_rhs => rw [← hsplit]
      rw [getLastD_append _ _ hg]
    rw [hGR, getLastD_reverse]
    exact dropWhile_head l hd1 ' '
  · show pyIsSpace
      (((l.dropWhile pyIsSpace).reverse.dropWhile pyIsSpace).reverse.getLastD ' ') = false
    rw [getLastD_reverse]
    exact dropWhile_head _ hg ' '

/-! ## Invariants of the scanner's parts -/

/-- Dropping a prefix cannot lengthen a list. -/
theorem dropWhile_len_le {p : Char → Bool} : ∀ l : List Char,
    (l.dropWhile p).length ≤ l.length := by
  intro l
  induction l with
  | nil => exact le_rfl
  | cons c t ih =>
    by_cases pc : p c = true
    · rw [List.dropWhile_cons, if_pos pc]
      exact le_trans ih (Nat.le_succ _)
    · rw [List.dropWhile_cons, if_neg pc]

/-- A true separator condition yields the shape of the whitespace
remainder: the post-whitespace part is nonempty and starts with an
uppercase letter or quote. -/
theorem sepStarts_shape {rest : List Char} (h : sepStarts rest = true) :
    ∃ d ds, rest.dropWhile pyIsSpace = d :: ds ∧ isUpperQuote d = true := by
  unfold sepStarts at h
  rw [Bool.and_eq_true] at h
  rcases h with ⟨-, h2⟩
  rcases hR : rest.dropWhile pyIsSpace with - | ⟨d, ds⟩
  · rw [hR] at h2
    simp at h2
  · rw [hR] at h2
    exact ⟨d, ds, rfl, h2⟩

/-- Every inner part of a scan (all but the last) is nonempty, ends with
a sentence-terminal mark, and contains no boundary before its last
character. -/
theorem seg_inner_aux : ∀ (n : Nat) (s : List Char), s.length ≤ n →
    ∀ p ∈ (seg s).dropLast,
      p ≠ [] ∧ isTerm (p.getLastD ' ') = true ∧ noSplitButLast p = true := by
  intro n
  induction n with
  | zero =>
    intro s hs p hp
    have hnil : s = [] := List.length_eq_zero.mp (Nat.le_zero.mp hs)
    subst hnil
    rw [show seg [] = [[]] from rfl] at hp
    simp at hp
  | succ n ih =>
    intro s hs p hp
    rcases s with - | ⟨c, rest⟩
    · rw [show seg [] = [[]] from rfl] at hp
      simp at hp
    · have hlen : rest.length ≤ n := Nat.le_of_succ_le_succ (by simpa using hs)
      by_cases hc : (isTerm c && sepStarts rest) = true
      · rw [seg_cons_split hc] at hp
        rcases hr : seg (rest.dropWhile pyIsSpace) with - | ⟨q, qs⟩
        · exact absurd hr (seg_ne_nil _)
        · rw [hr, List.dropLast_cons₂] at hp
          rcases List.mem_cons.mp hp with rfl | hp'
          · refine ⟨List.cons_ne_nil _ _, ?_, rfl⟩
            rw [show ([c] : List Char).getLastD ' ' = c from rfl]
            rw [Bool.and_eq_true] at hc
            exact hc.1
          · have hRlen : (rest.dropWhile pyIsSpace).length ≤ n :=
              le_trans (dropWhile_len_le rest) hlen
            exact ih _ hRlen p (by rw [hr]; exact hp')
      · have hc' : (isTerm c && sepStarts rest) = false := by simpa using hc
        rcases hr : seg rest with - | ⟨p0, ps0⟩
        · exact absurd hr (seg_ne_nil _)
        · rw [seg_cons_no hc' hr] at hp
          rcases ps0 with - | ⟨q, qs⟩
          · simp at hp
          · rw [List.dropLast_cons₂] at hp
            rcases List.mem_cons.mp hp with rfl | hp'
            · obtain ⟨hp0ne, hp0term, hp0ns⟩ :=
                ih rest hlen p0 (by rw [hr, List.dropLast_cons₂]; exact List.mem_cons_self _ _)
              refine ⟨List.cons_ne_nil _ _, ?_, ?_⟩
              · rw [getLastD_cons_ne hp0ne]
                exact hp0term
              · rcases p0 with - | ⟨d, p0'⟩
                · exact absurd rfl hp0ne
                · show noSplitButLast (c :: d :: p0') = true
                  unfold noSplitButLast
                  rw [Bool.and_eq_true]
                  refine ⟨?_, hp0ns⟩
                  rcases seg_pre hr with ⟨tl, htl⟩
                  have hex : ∃ x ∈ (d :: p0'), pyIsSpace x = false :=
                    ⟨(d :: p0').getLastD ' ', getLastD_mem _ hp0ne ' ',
                      isTerm_not_space hp0term⟩
                  have hsep : sepStarts rest = sepStarts (d :: p0') := by
                    rw [htl]
                    exact sepStarts_append _ tl hex
                  rw [← hsep, hc']
                  rfl
            · exact ih rest hlen p (by rw [hr, List.dropLast_cons₂]; exact List.mem_cons_of_mem _ hp')

/-- Every part after the first starts with an uppercase letter or
quotation mark and is nonempty. -/
theorem seg_tail_head_aux : ∀ (n : Nat) (s : List Char), s.length ≤ n →
    ∀ p ∈ (seg s).tail, p ≠ [] ∧ isUpperQuote (p.headD ' ') = true := by
  intro n
  induction n with
  | zero =>
    intro s hs p hp
    have hnil : s = [] := List.length_eq_zero.mp (Nat.le_zero.mp hs)
    subst hnil
    rw [show seg [] = [[]] from rfl] at hp
    simp at hp
  | succ n ih =>
    intro s hs p hp
    rcases s with - | ⟨c, rest⟩
    · rw [show seg [] = [[]] from rfl] at hp
      simp at hp
    · have hlen : rest.length ≤ n := Nat.le_of_succ_le_succ (by simpa using hs)
      by_cases hc : (isTerm c && sepStarts rest) = true
      · rw [seg_cons_split hc] at hp
        rw [show ([c] :: seg (rest.dropWhile pyIsSpace)).tail
            = seg (rest.dropWhile pyIsSpace) from rfl] at hp
        obtain ⟨d, ds, hR, hd⟩ := sepStarts_shape (Bool.and_eq_true .. ▸ hc).2
        rcases hq : seg (rest.dropWhile pyIsSpace) with - | ⟨q, qs⟩
        · exact absurd hq (seg_ne_nil _)
        · rw [hq] at hp
          rcases List.mem_cons.mp hp with rfl | hp'
          · have hRne : rest.dropWhile pyIsSpace ≠ [] := by rw [hR]; exact List.cons_ne_nil _ _
            have hpne : p ≠ [] := seg_head_ne hRne hq
            refine ⟨hpne, ?_⟩
            rcases seg_pre hq with ⟨tl, htl⟩
            have hhd : (rest.dropWhile pyIsSpace).headD ' ' = p.headD ' ' := by
              rw [htl]
              exact headD_append hpne tl ' '
            rw [← hhd, hR]
            exact hd
          · have hRlen : (rest.dropWhile pyIsSpace).length ≤ n :=
              le_trans (dropWhile_len_le rest) hlen
            exact ih _ hRlen p (by rw [hq]; exact hp')
      · have hc' : (isTerm c && sepStarts rest) = false := by simpa using hc
        rcases hr : seg rest with - | ⟨p0, ps0⟩
        · exact absurd hr (seg_ne_nil _)
        · rw [seg_cons_no hc' hr] at hp
          exact ih rest hlen p (by rw [hr]; exact hp)

/-- The last part of a scan contains no boundary at all. -/
theorem seg_last_noSplit_aux : ∀ (n : Nat) (s : List Char), s.length ≤ n →
    noSplit ((seg s).getLastD []) = true := by
  intro n
  induction n with
  | zero =>
    intro s hs
    have hnil : s = [] := List.length_eq_zero.mp (Nat.le_zero.mp hs)
    subst hnil
    decide
  | succ n ih =>
    intro s hs
    rcases s with - | ⟨c, rest⟩
    · decide
    · have hlen : rest.length ≤ n := Nat.le_of_succ_le_succ (by simpa using hs)
      by_cases hc : (isTerm c && sepStarts rest) = true
      · rw [seg_cons_split hc]
        rcases hq : seg (rest.dropWhile pyIsSpace) with - | ⟨q, qs⟩
        · exact absurd hq (seg_ne_nil _)
        · rw [List.getLastD_cons,
            getLastD_irrel (q :: qs) (List.cons_ne_nil _ _) [c] []]
          have hRlen : (rest.dropWhile pyIsSpace).length ≤ n :=
            le_trans (dropWhile_len_le rest) hlen
          have := ih _ hRlen
          rw [hq] at this
          exact this
      · have hc' : (isTerm c && sepStarts rest) = false := by simpa using hc
        rcases hr : seg rest with - | ⟨p0, ps0⟩
        · exact absurd hr (seg_ne_nil _)
        · rw [seg_cons_no hc' hr]
          rcases ps0 with - | ⟨q, qs⟩
          · have hrp : rest = p0 := seg_single hr
            rw [show ([c :: p0] : List (List Char)).getLastD [] = c :: p0 from rfl]
            unfold noSplit
            rw [Bool.and_eq_true]
            constructor
            · rw [← hrp, hc']
              rfl
            · have hn := ih rest hlen
              rw [hr] at hn
              rw [← hrp] at hn ⊢
              exact hn
          · rw [List.getLastD_cons,
              getLastD_irrel (q :: qs) (List.cons_ne_nil _ _) (c :: p0) []]
            have hn := ih rest hlen
            rw [hr, List.getLastD_cons,
              getLastD_irrel (q :: qs) (List.cons_ne_nil _ _) p0 []] at hn
            exact hn

/-- On nonempty input, the last part of the scan is nonempty and ends
with the input's last character. -/
theorem seg_last_char_aux : ∀ (n : Nat) (s : List Char), s.length ≤ n → s ≠ [] →
    (seg s).getLastD [] ≠ [] ∧
      ((seg s).getLastD []).getLastD ' ' = s.getLastD ' ' := by
  intro n
  induction n with
  | zero =>
    intro s hs hne
    exact absurd (List.length_eq_zero.mp (Nat.le_zero.mp hs)) hne
  | succ n ih =>
    intro s hs hne
    rcases s with - | ⟨c, rest⟩
    · exact absurd rfl hne
    · have hlen : rest.length ≤ n := Nat.le_of_succ_le_succ (by simpa using hs)
      by_cases hc : (isTerm c && sepStarts rest) = true
      · obtain ⟨d, ds, hR, hd⟩ := sepStarts_shape (Bool.and_eq_true .. ▸ hc).2
        have hRne : rest.dropWhile pyIsSpace ≠ [] := by
          rw [hR]
          exact List.cons_ne_nil _ _
        have hrestne : rest ≠ [] := by
          intro hnil
          rw [hnil] at hRne
          exact hRne rfl
        have hRlen : (rest.dropWhile pyIsSpace).length ≤ n :=
          le_trans (dropWhile_len_le rest) hlen
        obtain ⟨hlne, hleq⟩ := ih _ hRlen hRne
        rw [seg_cons_split hc]
        rcases hq : seg (rest.dropWhile pyIsSpace) with - | ⟨q, qs⟩
        · exact absurd hq (seg_ne_nil _)
        · rw [hq] at hlne hleq
          rw [List.getLastD_cons,
            getLastD_irrel (q :: qs) (List.cons_ne_nil _ _) [c] []]
          refine ⟨hlne, ?_⟩
          rw [hleq]
          have hsplit : rest.takeWhile pyIsSpace ++ rest.dropWhile pyIsSpace = rest :=
            List.takeWhile_append_dropWhile ..
          have h1 : rest.getLastD ' ' = (rest.dropWhile pyIsSpace).getLastD ' ' := by
            conv_lhs => rw [← hsplit]
            exact getLastD_append _ _ hRne ' '
          rw [← h1, getLastD_cons_ne hrestne]
      · have hc' : (isTerm c && sepStarts rest) = false := by simpa using hc
        rcases hr : seg rest with - | ⟨p0, ps0⟩
        · exact absurd hr (seg_ne_nil _)
        · rw [seg_cons_no hc' hr]
          rcases ps0 with - | ⟨q, qs⟩
          · have hrp : rest = p0 := seg_single hr
            refine ⟨List.cons_ne_nil _ _, ?_⟩
            rw [show ([c :: p0] : List (List Char)).getLastD [] = c :: p0 from rfl, hrp]
          · have hrestne : rest ≠ [] := by
              intro hnil
              rw [hnil] at hr
              rw [show seg [] = [[]] from rfl] at hr
              injection hr with h1 h2
              exact absurd h2.symm (List.cons_ne_nil _ _)
            obtain ⟨hlne, hleq⟩ := ih rest hlen hrestne
            rw [hr, List.getLastD_cons,
              getLastD_irrel (q :: qs) (List.cons_ne_nil _ _) p0 []] at hlne hleq
            rw [List.getLastD_cons,
              getLastD_irrel (q :: qs) (List.cons_ne_nil _ _) (c :: p0) []]
            refine ⟨hlne, ?_⟩
            rw [hleq, getLastD_cons_ne hrestne]

/-! ## Joining parts back together -/

/-- Scanning a boundary-free, terminal-ended part followed by a single
space and a capital-or-quote-initial remainder splits exactly at the
join. -/
theorem seg_append_sep : ∀ (p ys : List Char), p ≠ [] → isTerm (p.getLastD ' ') = true →
    noSplitButLast p = true → ys ≠ [] → isUpperQuote (ys.headD ' ') = true →
    seg (p ++ ' ' :: ys) = p :: seg ys := by
  intro p
  induction p with
  | nil => intro ys h; exact absurd rfl h
  | cons c p' ih =>
    intro ys _ hterm hns hys hup
    rcases ys with - | ⟨y0, ys'⟩
    · exact absurd rfl hys
    rcases p' with - | ⟨d, p''⟩
    · have hc : isTerm c = true := hterm
      have hy0 : isUpperQuote y0 = true := hup
      have hy0ns : pyIsSpace y0 = false := upperQuote_not_space hy0
      have hsep : sepStarts (' ' :: y0 :: ys') = true := by
        unfold sepStarts
        rw [List.takeWhile_cons, List.dropWhile_cons,
          if_pos (show pyIsSpace ' ' = true from rfl),
          if_pos (show pyIsSpace ' ' = true from rfl),
          List.dropWhile_cons, if_neg (by simp [hy0ns])]
        simp [hy0]
      have hdw : (' ' :: y0 :: ys').dropWhile pyIsSpace = y0 :: ys' := by
        rw [List.dropWhile_cons, if_pos (show pyIsSpace ' ' = true from rfl),
          List.dropWhile_cons, if_neg (by simp [hy0ns])]
      show seg (c :: ' ' :: y0 :: ys') = [c] :: seg (y0 :: ys')
      rw [seg_cons_split (by rw [Bool.and_eq_true]; exact ⟨hc, hsep⟩), hdw]
    · have hterm' : isTerm ((d :: p'').getLastD ' ') = true := by
        rw [getLastD_cons_ne (List.cons_ne_nil _ _) c ' '] at hterm
        exact hterm
      have hnsplit := hns
      unfold noSplitButLast at hnsplit
      rw [Bool.and_eq_true] at hnsplit
      have hex : ∃ x ∈ (d :: p''), pyIsSpace x = false :=
        ⟨_, getLastD_mem _ (List.cons_ne_nil _ _) ' ', isTerm_not_space hterm'⟩
      have hsepeq : sepStarts ((d :: p'') ++ ' ' :: y0 :: ys') = sepStarts (d :: p'') :=
        sepStarts_append _ _ hex
      have hcond : (isTerm c && sepStarts ((d :: p'') ++ ' ' :: y0 :: ys')) = false := by
        rw [hsepeq]
        cases hb : (isTerm c && sepStarts (d :: p'')) with
        | false => rfl
        | true =>
          have hfirst := hnsplit.1
          rw [hb] at hfirst
          exact absurd hfirst (by decide)
      have hrec := ih (y0 :: ys') (List.cons_ne_nil _ _) hterm' hnsplit.2
        (List.cons_ne_nil _ _) hup
      show seg (c :: ((d :: p'') ++ ' ' :: y0 :: ys')) = (c :: d :: p'') :: seg (y0 :: ys')
      exact seg_cons_no hcond hrec

/-- A single-space join of parts starting with a nonempty part is
nonempty. -/
theorem joinSp_cons_ne {p : List Char} (hp : p ≠ []) (rest : List (List Char)) :
    joinSp (p :: rest) ≠ [] := by
  rcases rest with - | ⟨q, ps⟩
  · exact hp
  · show p ++ ' ' :: joinSp (q :: ps) ≠ []
    simp

/-- The head of a single-space join is the head of its first part. -/
theorem joinSp_headD {p : List Char} (hp : p ≠ []) (rest : List (List Char)) :
    (joinSp (p :: rest)).headD ' ' = p.headD ' ' := by
  rcases rest with - | ⟨q, ps⟩
  · rfl
  · exact headD_append hp _ ' '

/-- The last character of a single-space join of nonempty parts is the
last character of its last part. -/
theorem joinSp_getLastD : ∀ (parts : List (List Char)), (∀ p ∈ parts, p ≠ []) →
    parts ≠ [] → (joinSp parts).getLastD ' ' = (parts.getLastD []).getLastD ' ' := by
  intro parts
  induction parts with
  | nil => intro _ h; exact absurd rfl h
  | cons p rest ih =>
    intro hall _
    rcases rest with - | ⟨q, ps⟩
    · rfl
    · show (p ++ ' ' :: joinSp (q :: ps)).getLastD ' ' = ((p :: q :: ps).getLastD []).getLastD ' '
      have hq : q ≠ [] := hall q (by simp)
      rw [getLastD_append p _ (List.cons_ne_nil _ _) ' ', List.getLastD_cons,
        ih (fun x hx => hall x (List.mem_cons_of_mem _ hx)) (List.cons_ne_nil _ _),
        getLastD_cons_ne (List.cons_ne_nil _ _) p []]

/-- Rescanning the single-space join of parts with the scanner's
invariants recovers the parts. -/
theorem seg_join : ∀ (parts : List (List Char)), parts ≠ [] →
    (∀ p ∈ parts.dropLast, p ≠ [] ∧ isTerm (p.getLastD ' ') = true ∧
      noSplitButLast p = true) →
    (∀ p ∈ parts.tail, p ≠ [] ∧ isUpperQuote (p.headD ' ') = true) →
    noSplit (parts.getLastD []) = true →
    seg (joinSp parts) = parts := by
  intro parts
  induction parts with
  | nil => intro h; exact absurd rfl h
  | cons p rest ih =>
    intro _ hinner htail hlast
    rcases rest with - | ⟨q, ps⟩
    · show seg (joinSp [p]) = [p]
      rw [show joinSp [p] = p from rfl]
      exact noSplit_seg p hlast
    · have hp := hinner p (by rw [List.dropLast_cons₂]; exact List.mem_cons_self _ _)
      have hq := htail q (List.mem_cons_self _ _)
      have hjne : joinSp (q :: ps) ≠ [] := joinSp_cons_ne hq.1 ps
      have hjhd : (joinSp (q :: ps)).headD ' ' = q.headD ' ' := joinSp_headD hq.1 ps
      have hstep := seg_append_sep p (joinSp (q :: ps)) hp.1 hp.2.1 hp.2.2 hjne
        (by rw [hjhd]; exact hq.2)
      show seg (p ++ ' ' :: joinSp (q :: ps)) = p :: q :: ps
      rw [hstep]
      congr 1
      apply ih (List.cons_ne_nil _ _)
      · intro x hx
        apply hinner x
        rw [List.dropLast_cons₂]
        exact List.mem_cons_of_mem _ hx
      · intro x hx
        exact htail x (List.mem_cons_of_mem _ hx)
      · rw [getLastD_cons_ne (List.cons_ne_nil _ _) p []] at hlast
        exact hlast

/-! ## Re-segmentation stability (C8) -/

/-- On input with non-whitespace ends, every part of the scan is
nonempty with non-whitespace ends. -/
theorem seg_clean {s : List Char} (hs : s ≠ [])
    (hh : pyIsSpace (s.headD ' ') = false) (hl : pyIsSpace (s.getLastD ' ') = false) :
    ∀ p ∈ seg s, p ≠ [] ∧ pyIsSpace (p.headD ' ') = false ∧
      pyIsSpace (p.getLastD ' ') = false := by
  intro p hp
  rcases hseg : seg s with - | ⟨q, qs⟩
  · exact absurd hseg (seg_ne_nil s)
  rw [hseg] at hp
  obtain ⟨hlne, hleq⟩ := seg_last_char_aux s.length s le_rfl hs
  rcases List.mem_cons.mp hp with rfl | hp'
  · have hpne : p ≠ [] := seg_head_ne hs hseg
    refine ⟨hpne, ?_, ?_⟩
    · rcases seg_pre hseg with ⟨tl, htl⟩
      rw [htl, headD_append hpne tl ' '] at hh
      exact hh
    · rcases qs with - | ⟨q1, qs'⟩
      · rw [hseg, show ([p] : List (List Char)).getLastD [] = p from rfl] at hleq
        rw [hleq]
        exact hl
      · have hpi := seg_inner_aux s.length s le_rfl p
          (by rw [hseg, List.dropLast_cons₂]; exact List.mem_cons_self _ _)
        exact isTerm_not_space hpi.2.1
  · have htp := seg_tail_head_aux s.length s le_rfl p (by rw [hseg]; exact hp')
    refine ⟨htp.1, upperQuote_not_space htp.2, ?_⟩
    have hqqs : (q :: qs : List (List Char)) ≠ [] := List.cons_ne_nil _ _
    have hmem : p ∈ (q :: qs).dropLast ++ [(q :: qs).getLast hqqs] := by
      rw [List.dropLast_append_getLast hqqs]
      exact hp
    rcases List.mem_append.mp hmem with hin | hlast'
    · have hpi := seg_inner_aux s.length s le_rfl p (by rw [hseg]; exact hin)
      exact isTerm_not_space hpi.2.1
    · have hpeq : p = (q :: qs).getLast hqqs := by simpa using hlast'
      rw [hseg, getLastD_eq_getLast (q :: qs) hqqs []] at hleq
      rw [hpeq, hleq]
      exact hl

/-- On non-blank input, `split_into_sentences` returns exactly the raw
scan parts: every part is already trimmed and nonempty. -/
theorem split_eq_parts {t : String} (hs : pyStrip t.data ≠ []) :
    split_into_sentences t = (seg (pyStrip t.data)).map String.mk := by
  unfold split_into_sentences
  obtain ⟨hh, hl⟩ := pyStrip_head_last hs
  have hclean := seg_clean hs hh hl
  rw [map_self_of _ _ (fun p hp => pyStrip_eq_self (hclean p hp).2.1 (hclean p hp).2.2),
    List.filter_eq_self.mpr (fun p hp => not_isEmpty_of_ne (hclean p hp).1)]

/-- The characters of a `joinWords` of packaged parts are the
single-space join of the parts. -/
theorem joinWords_data : ∀ (L : List (List Char)),
    (joinWords (L.map String.mk)).data = joinSp L := by
  intro L
  induction L with
  | nil => rfl
  | cons p rest ih =>
    rcases rest with - | ⟨q, ps⟩
    · rfl
    · show ((String.mk p) ++ " " ++ joinWords ((q :: ps).map String.mk)).data
        = p ++ ' ' :: joinSp (q :: ps)
      rw [String.data_append, String.data_append, ih]
      show (p ++ [' ']) ++ joinSp (q :: ps) = p ++ ' ' :: joinSp (q :: ps)
      rw [List.append_assoc]
      rfl

/-- Re-segmenting the single-space rejoin of the segmented sentences
gives back the same sentence list. -/
theorem split_join_split (t : String) :
    split_into_sentences (joinWords (split_into_sentences t)) = split_into_sentences t := by
  by_cases hs : pyStrip t.data = []
  · have h1 : split_into_sentences t = [] := by
      unfold split_into_sentences
      rw [hs]
      rfl
    rw [h1]
    rfl
  · have hsplit := split_eq_parts hs
    obtain ⟨hh, hl⟩ := pyStrip_head_last hs
    have hclean := seg_clean hs hh hl
    rw [hsplit]
    rcases hseg : seg (pyStrip t.data) with - | ⟨q, qs⟩
    · exact absurd hseg (seg_ne_nil _)
    have hdata : (joinWords ((q :: qs).map String.mk)).data = joinSp (q :: qs) :=
      joinWords_data _
    have hqne : q ≠ [] := (hclean q (by rw [hseg]; exact List.mem_cons_self _ _)).1
    have hallne : ∀ p ∈ q :: qs, p ≠ [] := fun p hp =>
      (hclean p (by rw [hseg]; exact hp)).1
    have hJh : pyIsSpace ((joinSp (q :: qs)).headD ' ') = false := by
      rw [joinSp_headD hqne qs]
      exact (hclean q (by rw [hseg]; exact List.mem_cons_self _ _)).2.1
    have hJl : pyIsSpace ((joinSp (q :: qs)).getLastD ' ') = false := by
      rw [joinSp_getLastD (q :: qs) hallne (List.cons_ne_nil _ _)]
      have hlastmem : (q :: qs).getLastD [] ∈ q :: qs :=
        getLastD_mem _ (List.cons_ne_nil _ _) []
      exact (hclean _ (by rw [hseg]; exact hlastmem)).2.2
    have hinner : ∀ p ∈ (q :: qs).dropLast, p ≠ [] ∧ isTerm (p.getLastD ' ') = true ∧
        noSplitButLast p = true := by
      intro p hp
      exact seg_inner_aux (pyStrip t.data).length _ le_rfl p (by rw [hseg]; exact hp)
    have htail : ∀ p ∈ (q :: qs).tail, p ≠ [] ∧ isUpperQuote (p.headD ' ') = true := by
      intro p hp
      exact seg_tail_head_aux (pyStrip t.data).length _ le_rfl p (by rw [hseg]; exact hp)
    have hlastns : noSplit ((q :: qs).getLastD []) = true := by
      have hx := seg_last_noSplit_aux (pyStrip t.data).length _ le_rfl
      rw [hseg] at hx
      exact hx
    have hsegJ : seg (joinSp (q :: qs)) = q :: qs :=
      seg_join (q :: qs) (List.cons_ne_nil _ _) hinner htail hlastns
    unfold split_into_sentences
    rw [hdata, pyStrip_eq_self hJh hJl, hsegJ,
      map_self_of _ _ (fun p hp => pyStrip_eq_self
        (hclean p (by rw [hseg]; exact hp)).2.1 (hclean p (by rw [hseg]; exact hp)).2.2),
      List.filter_eq_self.mpr (fun p hp => not_isEmpty_of_ne (hallne p hp))]

/-- C8: segmenting the single-space rejoin of an already-segmented
sentence sequence yields the same sentence count. -/
theorem c8_resegmentation_stable (t : String) :
    (split_into_sentences (joinWords (split_into_sentences t))).length
      = (split_into_sentences t).length := by
  rw [split_join_split t]

/-! ## Word-content round trip (C5) -/

/-- Whitespace characters are not letters. -/
theorem ws_not_alpha {c : Char} (h : pyIsSpace c = true) : isAsciiAlpha c = false := by
  unfold pyIsSpace at h
  simp only [Bool.or_eq_true] at h
  rcases h with ((((h | h) | h) | h) | h) | h <;> (rw [eq_of_beq h]; decide)

/-- The whitespace/non-whitespace runs of a sentence concatenate back to
the sentence. -/
theorem runs_join : ∀ l : List Char, joinAll (runs l) = l := by
  intro l
  induction l with
  | nil => rfl
  | cons c rest ih =>
    rcases rest with - | ⟨d, rest'⟩
    · rfl
    · rcases hr : runs (d :: rest') with - | ⟨r, rs⟩
      · rw [hr] at ih
        exact absurd ih.symm (List.cons_ne_nil _ _)
      · have hru : runs (c :: d :: rest') =
            if pyIsSpace c == pyIsSpace d then (c :: r) :: rs else [c] :: r :: rs := by
          unfold runs
          rw [hr]
        rw [hr] at ih
        by_cases hcd : (pyIsSpace c == pyIsSpace d) = true
        · rw [hru, if_pos hcd]
          show c :: (r ++ joinAll rs) = c :: d :: rest'
          rw [show r ++ joinAll rs = joinAll (r :: rs) from rfl, ih]
        · rw [hru, if_neg hcd]
          show c :: (r ++ joinAll rs) = c :: d :: rest'
          rw [show r ++ joinAll rs = joinAll (r :: rs) from rfl, ih]

/-- Word tokenization distributes over a non-letter separator. -/
theorem wtAux_append {c : Char} (hc : isAsciiAlpha c = false) :
    ∀ (a b acc : List Char), wtAux acc (a ++ c :: b) = wtAux acc a ++ wtAux [] b := by
  intro a
  induction a with
  | nil =>
    intro b acc
    rcases acc with - | ⟨x, xs⟩
    · simp [wtAux, hc]
    · simp [wtAux, hc]
  | cons d a' ih =>
    intro b acc
    show wtAux acc (d :: (a' ++ c :: b)) = wtAux acc (d :: a') ++ wtAux [] b
    by_cases hd : isAsciiAlpha d = true
    · rw [show wtAux acc (d :: (a' ++ c :: b)) = wtAux (d :: acc) (a' ++ c :: b) from
        by simp [wtAux, hd]]
      rw [show wtAux acc (d :: a') = wtAux (d :: acc) a' from by simp [wtAux, hd]]
      exact ih b (d :: acc)
    · have hd' : isAsciiAlpha d = false := by simpa using hd
      rcases acc with - | ⟨x, xs⟩
      · rw [show wtAux [] (d :: (a' ++ c :: b)) = wtAux [] (a' ++ c :: b) from
          by simp [wtAux, hd']]
        rw [show wtAux [] (d :: a') = wtAux [] a' from by simp [wtAux, hd']]
        exact ih b []
      · rw [show wtAux (x :: xs) (d :: (a' ++ c :: b))
            = (x :: xs).reverse :: wtAux [] (a' ++ c :: b) from by simp [wtAux, hd']]
        rw [show wtAux (x :: xs) (d :: a') = (x :: xs).reverse :: wtAux [] a' from
          by simp [wtAux, hd']]
        rw [ih b []]
        rfl

/-- Word tokens across a non-letter character split into two sides. -/
theorem wt_append_nonalpha {c : Char} (hc : isAsciiAlpha c = false) (a b : List Char) :
    wordTokens (a ++ c :: b) = wordTokens a ++ wordTokens b :=
  wtAux_append hc a b []

/-- A leading non-letter does not change the word tokens. -/
theorem wt_cons_nonalpha {c : Char} (hc : isAsciiAlpha c = false) (b : List Char) :
    wordTokens (c :: b) = wordTokens b := by
  have h := wt_append_nonalpha hc [] b
  simpa using h

/-- A letter-free list has no word tokens. -/
theorem wt_nil_allnonalpha : ∀ l : List Char, (∀ x ∈ l, isAsciiAlpha x = false) →
    wordTokens l = [] := by
  intro l
  induction l with
  | nil => intro _; rfl
  | cons c t ih =>
    intro h
    rw [wt_cons_nonalpha (h c (List.mem_cons_self _ _))]
    exact ih (fun x hx => h x (List.mem_cons_of_mem _ hx))

/-- Appending letter-free characters does not change the word tokens. -/
theorem wt_append_allnonalpha_right (a w : List Char)
    (hw : ∀ x ∈ w, isAsciiAlpha x = false) : wordTokens (a ++ w) = wordTokens a := by
  rcases w with - | ⟨c, w'⟩
  · simp
  · rw [wt_append_nonalpha (hw c (List.mem_cons_self _ _)) a w',
      wt_nil_allnonalpha w' (fun x hx => hw x (List.mem_cons_of_mem _ hx))]
    simp

/-- Prepending letter-free characters does not change the word tokens. -/
theorem wt_prepend_allnonalpha : ∀ (w b : List Char),
    (∀ x ∈ w, isAsciiAlpha x = false) → wordTokens (w ++ b) = wordTokens b := by
  intro w
  induction w with
  | nil => intro b _; simp
  | cons c w' ih =>
    intro b hw
    rw [List.cons_append, wt_cons_nonalpha (hw c (List.mem_cons_self _ _))]
    exact ih b (fun x hx => hw x (List.mem_cons_of_mem _ hx))

/-- Leading whitespace does not change the word tokens. -/
theorem wt_dropWhile (l : List Char) :
    wordTokens (l.dropWhile pyIsSpace) = wordTokens l := by
  induction l with
  | nil => rfl
  | cons c t ih =>
    by_cases pc : pyIsSpace c = true
    · rw [List.dropWhile_cons, if_pos pc, wt_cons_nonalpha (ws_not_alpha pc)]
      exact ih
    · rw [List.dropWhile_cons, if_neg pc]

/-- Stripping does not change the word tokens. -/
theorem wt_pyStrip (l : List Char) : wordTokens (pyStrip l) = wordTokens l := by
  unfold pyStrip
  have hsplit : (l.dropWhile pyIsSpace).reverse.takeWhile pyIsSpace ++
      (l.dropWhile pyIsSpace).reverse.dropWhile pyIsSpace
      = (l.dropWhile pyIsSpace).reverse := List.takeWhile_append_dropWhile ..
  have hA : l.dropWhile pyIsSpace
      = ((l.dropWhile pyIsSpace).reverse.dropWhile pyIsSpace).reverse ++
        ((l.dropWhile pyIsSpace).reverse.takeWhile pyIsSpace).reverse := by
    conv_lhs => rw [← List.reverse_reverse (l.dropWhile pyIsSpace), ← hsplit]
    rw [List.reverse_append]
  have h1 : wordTokens ((l.dropWhile pyIsSpace).reverse.dropWhile pyIsSpace).reverse
      = wordTokens (l.dropWhile pyIsSpace) := by
    conv_rhs => rw [hA]
    rw [wt_append_allnonalpha_right]
    intro x hx
    rw [List.mem_reverse] at hx
    exact ws_not_alpha (takeWhile_all _ x hx)
  rw [h1, wt_dropWhile]

/-- Word tokens of a single-space join are the word tokens of the
parts. -/
theorem wt_joinSp : ∀ L : List (List Char),
    wordTokens (joinSp L) = (L.map wordTokens).flatten := by
  intro L
  induction L with
  | nil => rfl
  | cons p rest ih =>
    rcases rest with - | ⟨q, ps⟩
    · simp [joinSp]
    · show wordTokens (p ++ ' ' :: joinSp (q :: ps)) = _
      rw [wt_append_nonalpha (by decide) p (joinSp (q :: ps)), ih]
      simp

/-- Word tokens of the input are the word tokens of its scan parts. -/
theorem wt_seg_aux : ∀ (n : Nat) (s : List Char), s.length ≤ n →
    wordTokens s = ((seg s).map wordTokens).flatten := by
  intro n
  induction n with
  | zero =>
    intro s hs
    have hnil : s = [] := List.length_eq_zero.mp (Nat.le_zero.mp hs)
    subst hnil
    rfl
  | succ n ih =>
    intro s hs
    rcases hseg : seg s with - | ⟨p, ps⟩
    · exact absurd hseg (seg_ne_nil s)
    rcases seg_structure hseg with ⟨hps, hsp⟩ | ⟨w, rest2, -, heq, hwne, hall, hseg2⟩
    · subst hps
      rw [hsp]
      simp
    · rcases w with - | ⟨wc, w'⟩
      · exact absurd rfl hwne
      have hlen2 : rest2.length ≤ n := by
        have h3 : s.length = p.length + (w'.length + 1) + rest2.length := by
          rw [heq]
          simp [List.length_append]
          omega
        omega
      rw [heq, show p ++ (wc :: w') ++ rest2 = p ++ wc :: (w' ++ rest2) from by simp,
        wt_append_nonalpha (ws_not_alpha (hall wc (by simp))) p (w' ++ rest2),
        wt_prepend_allnonalpha w' rest2 (fun x hx => ws_not_alpha (hall x (by simp [hx]))),
        ih rest2 hlen2, ← hseg2]
      simp

/-- Stripping and filtering the parts does not change the combined word
tokens. -/
theorem join_wt_processed : ∀ L : List (List Char),
    (((L.map pyStrip).filter (fun p => !p.isEmpty)).map wordTokens).flatten
      = (L.map wordTokens).flatten := by
  intro L
  induction L with
  | nil => rfl
  | cons p rest ih =>
    by_cases hp : (pyStrip p).isEmpty = true
    · have hps : pyStrip p = [] := by simpa using hp
      have hwt : wordTokens p = [] := by
        rw [← wt_pyStrip p, hps]
        rfl
      simp [List.filter_cons, hp, hwt, ih]
    · have hp' : (!(pyStrip p).isEmpty) = true := by simp [hp]
      simp [List.filter_cons, hp', wt_pyStrip, ih]

/-- Packaged concatenation agrees with character-level concatenation. -/
theorem concatStrs_mk : ∀ rs : List (List Char),
    concatStrs (rs.map String.mk) = String.mk (joinAll rs) := by
  intro rs
  induction rs with
  | nil => rfl
  | cons r rest ih =>
    show String.mk r ++ concatStrs (rest.map String.mk) = String.mk (r ++ joinAll rest)
    rw [ih]
    rfl

/-- Stripping the highlight markup from the annotated output rejoins the
sentences with single spaces. -/
theorem stripHighlights_annotate (ts : String → Option ℚ) (sy : String → Nat)
    (t : String) (target : ℚ) :
    stripHighlights (annotate ts sy t target) = joinWords (split_into_sentences t) := by
  unfold stripHighlights annotate
  rw [List.map_map]
  congr 1
  apply map_self_of
  intro sent _hmem
  show concatStrs ((annotateSentence sy sent.data).map Prod.fst) = sent
  unfold annotateSentence
  rw [List.map_map]
  rw [show ((Prod.fst ∘ fun tok => (String.mk tok, heavyTok sy tok)) :
      List Char → String) = String.mk from rfl]
  rw [concatStrs_mk, runs_join sent.data]

/-- C5: stripping all highlight markup from the Annotator's output is
the single-space rejoin of the segmented sentences, and it carries
exactly the word content (the alphabetic-run word tokens) of the input
zone text. -/
theorem c5_round_trip (ts : String → Option ℚ) (sy : String → Nat) (t : String)
    (target : ℚ) :
    stripHighlights (annotate ts sy t target) = joinWords (split_into_sentences t) ∧
    wordTokensStr (stripHighlights (annotate ts sy t target)) = wordTokensStr t := by
  refine ⟨stripHighlights_annotate ts sy t target, ?_⟩
  rw [stripHighlights_annotate ts sy t target]
  unfold wordTokensStr
  congr 1
  unfold split_into_sentences
  rw [joinWords_data, wt_joinSp, join_wt_processed,
    ← wt_seg_aux (pyStrip t.data).length _ le_rfl, wt_pyStrip]
